import Mathlib

/-!
Verification development for the arXiv weekly radar pipeline
(`arxiv_weekly_radar.py`): a shallow embedding of its pure core
(quota allocator, bucket classifier, threshold filter, selector,
exporters, seen-ledger) together with theorems about the claims of
the specification.

Conventions of the embedding:
* The only floating-point computation of the source is
  `round(total * component / s)` in `ratio_counts`.  All quantities
  are integers, so the quotient is the exact fraction
  `(total * component) / s`; for the magnitudes this program uses the
  float division is exact at every rounding boundary, and Python 3
  `round` is round-half-to-even.  We therefore model the rounding
  exactly on the fraction numerator/denominator.
* Python strings become Lean `String` / `List Char`; `str.lower` is
  modelled on ASCII letters (all configured keywords are ASCII).
* Python sets of identifiers become `Finset String`; Python's sorted
  order on strings is the lexicographic order by code point, which is
  exactly the `LinearOrder String` instance.
-/


/-- Python 3 `round` applied to the exact non-negative fraction `n / d`:
round to the nearest integer, ties going to the even integer. -/
def roundHalfEvenFrac (n d : ℕ) : ℕ :=
  if 2 * (n % d) < d then n / d
  else if d < 2 * (n % d) then n / d + 1
  else if n / d % 2 = 0 then n / d else n / d + 1

/-- Rounding of the non-negative fraction `n / d` as the spec describes it
for the allocator: to the nearest integer, ties away from zero (so a tie
rounds up).  Spec-side definition, used only to compare the spec's formula
with the source's behaviour. -/
def roundTiesAwayFrac (n d : ℕ) : ℕ :=
  if 2 * (n % d) < d then n / d else n / d + 1

/-- Source function `ratio_counts(total, ratio)`:
`s = a+b+c`, `x = int(round(total*a/s))`, `y = int(round(total*b/s))`,
`z = total - x - y`.  Python raises `ZeroDivisionError` when `s = 0`;
we return `none` there. -/
def ratio_counts (total : ℕ) (ratio : ℕ × ℕ × ℕ) : Option (ℤ × ℤ × ℤ) :=
  let (a, b, c) := ratio
  let s := a + b + c
  if s = 0 then none
  else
    let x : ℤ := roundHalfEvenFrac (total * a) s
    let y : ℤ := roundHalfEvenFrac (total * b) s
    some (x, y, (total : ℤ) - x - y)

/-- The configured total shortlist size (`TOTAL_PICKS = 10`). -/
def TOTAL_PICKS : ℕ := 10

/-- The configured priority ratio (`RATIO = (6, 3, 1)`). -/
def RATIO : ℕ × ℕ × ℕ := (6, 3, 1)

/-! ### String utilities of the source (`norm`, `strip`, `split`, `join`) -/

/-- Python's regex class `\s` on the ASCII range: space, tab, newline,
carriage return, vertical tab, form feed. -/
def isPySpace (ch : Char) : Bool :=
  ch = ' ' || ch = '\t' || ch = '\n' || ch = '\r' ||
    ch = Char.ofNat 11 || ch = Char.ofNat 12

/-- Regex substitution `re.sub(r"\s+", " ", s)`: every maximal run of whitespace becomes a
single space.  The flag records whether we are inside a whitespace run
(whose single replacement space has already been emitted). -/
def collapseWSAux : Bool → List Char → List Char
  | _, [] => []
  | inRun, ch :: rest =>
    if isPySpace ch then
      if inRun then collapseWSAux true rest
      else ' ' :: collapseWSAux true rest
    else ch :: collapseWSAux false rest

/-- Regex substitution `re.sub(r"\s+", " ", s)` on a character list. -/
def collapseWS (l : List Char) : List Char := collapseWSAux false l

/-- Python `str.strip()` on a character list: drop whitespace from both
ends. -/
def pyStripChars (l : List Char) : List Char :=
  ((l.dropWhile (fun a => isPySpace a)).reverse.dropWhile (fun a => isPySpace a)).reverse

/-- Python `str.strip()`. -/
def pyStrip (s : String) : String := String.mk (pyStripChars s.data)

/-- Source function `norm(s)`: `re.sub(r"\s+", " ", s).strip().lower()`
(the `s or ""` guard is the identity on actual strings).  `lower` is
modelled on ASCII via `Char.toLower`; every configured keyword is ASCII. -/
def norm (s : String) : String :=
  String.mk ((pyStripChars (collapseWS s.data)).map Char.toLower)

/-- Python's substring test `kw in t` on character lists. -/
def isSubstringOf (kw : List Char) : List Char → Bool
  | [] => kw.isEmpty
  | t@(_ :: rest) => kw.isPrefixOf t || isSubstringOf kw rest

/-- Source function `count_hits(text, keywords)`: normalize the text, then
count the configured keywords occurring in it as substrings; `hits` and
`score` are incremented together. -/
def count_hits (text : String) (keywords : List String) : ℕ × ℕ :=
  keywords.foldl
    (fun acc kw =>
      if isSubstringOf kw.data (norm text).data then (acc.1 + 1, acc.2 + 1) else acc)
    (0, 0)

/-! ### The bucket classifier (the best-bucket loop of `main`) -/

/-- One iteration of the best-bucket loop: the running best
`(best_bucket, best_hits, best_score)` is replaced exactly when the
bucket's score is strictly greater than `best_score`. -/
def classifyStep (blob : String) (acc : Option String × ℕ × ℤ)
    (b : String × List String) : Option String × ℕ × ℤ :=
  let hs := count_hits blob b.2
  if (hs.2 : ℤ) > acc.2.2 then (some b.1, hs.1, (hs.2 : ℤ)) else acc

/-- The best-bucket loop of `main`: fold over the buckets in declaration
order starting from `(None, 0, -1)`. -/
def classify (buckets : List (String × List String)) (blob : String) :
    Option String × ℕ × ℤ :=
  buckets.foldl (classifyStep blob) (none, 0, -1)

/-- The configured bucket table, in declaration order. -/
def BUCKETS : List (String × List String) :=
  [("P1_world_model_vla_3d",
    ["world model", "embodied", "vla", "vision-language-action",
     "visuomotor", "policy learning", "sim2real",
     "3d reconstruction", "multi-view", "structure from motion",
     "slam", "nerf", "gaussian splatting", "robot", "robotics"]),
   ("P2_generative_ai",
    ["diffusion", "generative model", "foundation model",
     "video generation", "multimodal", "transformer"]),
   ("P3_2d_cv",
    ["object detection", "segmentation",
     "multi-object tracking", "mot",
     "reid", "association", "id switch"])]

/-- The configured minimum-hits threshold. -/
def MIN_HITS_ANY_BUCKET : ℕ := 2

/-! ### The per-item pipeline of `main` (recency filter, seen filter,
classification, threshold, row accumulation, seen update) -/

/-- A fetched candidate item, as consumed by the loop of `main`.  The
publication instant is modelled twice, matching the two ways the source
uses it: as an abstract instant (`published`, an integer timeline, used
only for the `published < since` recency comparison) and as the ISO-format
string `res.published.isoformat()` stored in the row (`publishedIso`). -/
structure Candidate where
  shortId : String
  title : String
  summary : String
  authorNames : List String
  published : ℤ
  publishedIso : String
  entryId : String
deriving DecidableEq

/-- One row of the accumulated pool, with the fields and order of the
dict built in `main`.  `bucket` is `Option String` because `best_bucket`
starts as `None`. -/
structure Row where
  pid : String
  title : String
  authors : String
  published : String
  url : String
  bucket : Option String
  score : ℤ
  abstract : String
deriving DecidableEq

/-- Identifier stripping `res.get_short_id().split("v")[0]`: everything before the first `v`. -/
def pidStrip (s : String) : String :=
  String.mk (s.data.takeWhile (fun ch => ch ≠ 'v'))

/-- Python `s.replace("\n", " ")` for the single-character pattern. -/
def pyReplaceNl (s : String) : String :=
  String.mk (s.data.map (fun ch => if ch = '\n' then ' ' else ch))

/-- Python `", ".join(names)`. -/
def pyJoin (sep : String) : List String → String
  | [] => ""
  | x :: rest => rest.foldl (fun acc y => acc ++ sep ++ y) x

/-- Source expression `title = res.title.replace("\n", " ").strip()`. -/
def titleClean (s : String) : String := pyStrip (pyReplaceNl s)

/-- Source expression `blob = f"{title}\n{abstract}"` with
`abstract = (res.summary or "").strip()`. -/
def blobOf (c : Candidate) : String :=
  titleClean c.title ++ "\n" ++ pyStrip c.summary

/-- The winning bucket's hit count for a candidate. -/
def candHits (buckets : List (String × List String)) (c : Candidate) : ℕ :=
  (classify buckets (blobOf c)).2.1

/-- The row appended for a candidate that passes all filters. -/
def mkRow (buckets : List (String × List String)) (c : Candidate) : Row :=
  { pid := pidStrip c.shortId
    title := titleClean c.title
    authors := pyJoin ", " c.authorNames
    published := c.publishedIso
    url := c.entryId
    bucket := (classify buckets (blobOf c)).1
    score := (classify buckets (blobOf c)).2.2
    abstract := pyStrip c.summary }

/-- One iteration of the fetch loop of `main`: skip when published before
the window, skip when the version-stripped id is already seen, classify,
skip when the winning bucket's hits are below the minimum, otherwise
append the row and add the id to the seen set. -/
def processItem (buckets : List (String × List String)) (minHits : ℕ) (since : ℤ)
    (st : Finset String × List Row) (c : Candidate) : Finset String × List Row :=
  if c.published < since then st
  else if pidStrip c.shortId ∈ st.1 then st
  else if candHits buckets c < minHits then st
  else (insert (pidStrip c.shortId) st.1, st.2 ++ [mkRow buckets c])

/-- The whole fetch loop: fold `processItem` over the fetched candidates
in order, starting from the loaded seen set and an empty pool. -/
def runLoop (buckets : List (String × List String)) (minHits : ℕ) (since : ℤ)
    (seen₀ : Finset String) (cands : List Candidate) : Finset String × List Row :=
  cands.foldl (processItem buckets minHits since) (seen₀, [])

/-! ### The selector (global sort, per-bucket head slices, final truncation) -/

/-- Python `s.startswith(p)`. -/
def pyStartswith (s p : String) : Bool := p.data.isPrefixOf s.data

/-- Filter `df["bucket"].str.startswith(p)`: a row whose bucket is `None`
(pandas `NaN`) never matches. -/
def bucketStarts (p : String) (r : Row) : Bool :=
  match r.bucket with
  | some b => pyStartswith b p
  | none => false

/-- The key of `df.sort_values(["score", "published"], ascending=[False,
False])`: `r₁` may precede `r₂` when its score is greater, or scores tie
and its published string (ISO format, so lexicographic order is
chronological) is not smaller. -/
def rowLE (r₁ r₂ : Row) : Bool :=
  decide (r₂.score < r₁.score ∨ (r₁.score = r₂.score ∧ r₂.published ≤ r₁.published))

/-- The one global sort of the pool. -/
def sortRows (rows : List Row) : List Row := rows.mergeSort rowLE

/-- The selection of `main`: per-bucket head slices of the globally sorted
pool (`head(quota)` after a `startswith` filter), concatenated in priority
order, truncated to the configured total. -/
def select (rows : List Row) (q1 q2 q3 total : ℕ) : List Row :=
  ((((sortRows rows).filter (bucketStarts "P1")).take q1)
    ++ (((sortRows rows).filter (bucketStarts "P2")).take q2)
    ++ (((sortRows rows).filter (bucketStarts "P3")).take q3)).take total

/-! ### Seen-ledger dynamics of the run loop -/

/-- A candidate "qualifies" in a run when it is inside the recency window
and its winning bucket reaches the minimum hit count.  (Whether it is
skipped as already seen does not matter for the final seen set: a skipped
id is in the set already.) -/
def qualifies (buckets : List (String × List String)) (minHits : ℕ) (since : ℤ)
    (c : Candidate) : Bool :=
  !(decide (c.published < since)) && decide (minHits ≤ candHits buckets c)

/-! ### The bibliographic (RIS) exporter -/

/-- Python `str.split(sep)` for a one-character separator, as the pair
(first field, remaining fields); splitting the empty string yields one
empty field, like Python. -/
def splitCharNE (c : Char) : List Char → List Char × List (List Char)
  | [] => ([], [])
  | a :: rest =>
    let p := splitCharNE c rest
    if a = c then ([], p.1 :: p.2) else (a :: p.1, p.2)

/-- Python `s.split(c)`. -/
def pySplit (c : Char) (s : String) : List String :=
  ((splitCharNE c s.data).1 :: (splitCharNE c s.data).2).map String.mk

/-- One RIS record as emitted by `main`: `TY`, `TI`, one `AU` line per
comma-separated field of the stored author string (each field
whitespace-stripped), `UR`, the `ER` terminator, and the blank separator
line. -/
def risRecord (r : Row) : List String :=
  ["TY  - JOUR", "TI  - " ++ r.title]
    ++ (pySplit ',' r.authors).map (fun au => "AU  - " ++ pyStrip au)
    ++ ["UR  - " ++ r.url, "ER  - ", ""]

/-! ### The digest (Markdown) exporter -/

/-- Python `s[:n]`. -/
def pyTake (n : ℕ) (s : String) : String := String.mk (s.data.take n)

/-- The fixed part of a digest entry before the abstract: identifier+URL
link line, title line, author line. -/
def mdEntryHead (r : Row) : String :=
  "- **[" ++ r.pid ++ "](" ++ r.url ++ ")**  \n  " ++ r.title
    ++ "  \n  *" ++ r.authors ++ "*  \n  "

/-- One digest entry as emitted by `main`: the head, then the abstract cut
to 300 characters wrapped as `_..." ..."..._` with the ellipsis marker
appended unconditionally. -/
def mdEntry (r : Row) : String :=
  mdEntryHead r ++ "_" ++ pyTake 300 r.abstract ++ "..._\n"

/-! ### The seen-ledger file format (`load_seen` / `save_seen`) -/

/-- The line boundaries of Python `str.splitlines`. -/
def isLineBreakChar (ch : Char) : Bool :=
  ch = '\n' || ch = '\r' || ch = Char.ofNat 11 || ch = Char.ofNat 12 ||
    ch = Char.ofNat 28 || ch = Char.ofNat 29 || ch = Char.ofNat 30 ||
    ch = Char.ofNat 133 || ch = Char.ofNat 8232 || ch = Char.ofNat 8233

/-- Python `str.splitlines` on a character list, one character at a time:
`cur` is the current line reversed, `prevCr` records that the previous
character was a `\r` (so that a following `\n` is part of the same `\r\n`
boundary); a trailing boundary does not produce a final empty line. -/
def slGo (prevCr : Bool) (cur : List Char) : List Char → List (List Char)
  | [] => if cur.isEmpty then [] else [cur.reverse]
  | a :: rest =>
    if a = '\r' then cur.reverse :: slGo true [] rest
    else if a = '\n' then
      if prevCr then slGo false cur rest
      else cur.reverse :: slGo false [] rest
    else if isLineBreakChar a then cur.reverse :: slGo false [] rest
    else slGo false (a :: cur) rest

/-- Python `s.splitlines()`. -/
def splitlines (s : String) : List String := (slGo false [] s.data).map String.mk

/-- Source function `load_seen` (given the ledger file's contents):
`set(text.splitlines())`. -/
def load_seen (contents : String) : Finset String := (splitlines contents).toFinset

/-- Python `"\n".join(...)` on character lists. -/
def joinNl : List (List Char) → List Char
  | [] => []
  | [a] => a
  | a :: b :: rest => a ++ '\n' :: joinNl (b :: rest)

/-- Source function `save_seen` (the contents written to the ledger
file): `"\n".join(sorted(seen))`; Python's sort order on strings is the
lexicographic order by code point, i.e. the `String` linear order. -/
def save_seen (seen : Finset String) : String :=
  String.mk (joinNl ((seen.sort (fun a b => a ≤ b)).map String.data))

/-! ### Theorems -/

/-- The rounded value is at most `n/d + 1/2`, in integer form:
`2 * d * round(n/d) ≤ 2 * n + d`. -/
theorem roundHalfEvenFrac_le {n d : ℕ} (hd : 0 < d) :
    2 * d * roundHalfEvenFrac n d ≤ 2 * n + d := by
  obtain ⟨q, r, hr, rfl⟩ : ∃ q r, r < d ∧ n = d * q + r :=
    ⟨n / d, n % d, Nat.mod_lt n hd, (Nat.div_add_mod n d).symm⟩
  have hdiv : (d * q + r) / d = q := by
    rw [Nat.mul_add_div hd, Nat.div_eq_of_lt hr, Nat.add_zero]
  have hmod : (d * q + r) % d = r := by
    rw [Nat.mul_add_mod, Nat.mod_eq_of_lt hr]
  unfold roundHalfEvenFrac
  rw [hdiv, hmod]
  split
  · ring_nf
    omega
  · split
    · ring_nf
      omega
    · split <;> (ring_nf; omega)

/-- Rounding a zero numerator: `roundHalfEvenFrac 0 d = 0`. -/
theorem roundHalfEvenFrac_zero (d : ℕ) : roundHalfEvenFrac 0 d = 0 := by
  unfold roundHalfEvenFrac
  simp

/-- The rounded value is at least `n/d - 1/2`, in integer form:
`2 * n ≤ 2 * d * round(n/d) + d`. -/
theorem roundHalfEvenFrac_ge {n d : ℕ} (hd : 0 < d) :
    2 * n ≤ 2 * d * roundHalfEvenFrac n d + d := by
  obtain ⟨q, r, hr, rfl⟩ : ∃ q r, r < d ∧ n = d * q + r :=
    ⟨n / d, n % d, Nat.mod_lt n hd, (Nat.div_add_mod n d).symm⟩
  have hdiv : (d * q + r) / d = q := by
    rw [Nat.mul_add_div hd, Nat.div_eq_of_lt hr, Nat.add_zero]
  have hmod : (d * q + r) % d = r := by
    rw [Nat.mul_add_mod, Nat.mod_eq_of_lt hr]
  unfold roundHalfEvenFrac
  rw [hdiv, hmod]
  split
  · ring_nf
    omega
  · split
    · ring_nf
      omega
    · split <;> (ring_nf; omega)

/-- At an exact tie (`n/d` has fractional part exactly `1/2`) the rounding
picks the even integer. -/
theorem roundHalfEvenFrac_tie_even {n d : ℕ} (ht : 2 * (n % d) = d) :
    roundHalfEvenFrac n d % 2 = 0 := by
  unfold roundHalfEvenFrac
  rw [ht]
  simp only [lt_irrefl, if_false]
  split <;> omega

/-- The two explicitly rounded quotas cannot overshoot the total when the
third ratio component is positive. -/
theorem quota_pair_le (total a b c : ℕ) (hc : 0 < c) :
    roundHalfEvenFrac (total * a) (a + b + c) +
      roundHalfEvenFrac (total * b) (a + b + c) ≤ total := by
  rcases Nat.eq_zero_or_pos total with h0 | hpos
  · subst h0
    simp [roundHalfEvenFrac_zero]
  · have hS : 0 < a + b + c := by omega
    have h1 := roundHalfEvenFrac_le (n := total * a) hS
    have h2 := roundHalfEvenFrac_le (n := total * b) hS
    by_contra hlt
    push_neg at hlt
    have h3 : 2 * (a + b + c) * (total + 1) ≤
        2 * (a + b + c) * (roundHalfEvenFrac (total * a) (a + b + c) +
          roundHalfEvenFrac (total * b) (a + b + c)) :=
      Nat.mul_le_mul_left _ (by omega)
    have h4 : 0 < total * c := Nat.mul_pos hpos hc
    nlinarith [h1, h2, h3, h4]

/-- C1 (amended): for every ratio tuple `(a,b,c)` with positive sum and
every total `T`, `ratio_counts` succeeds and returns `(x,y,z)` with
`x + y + z = T`, `x ≥ 0` and `y ≥ 0`; the remainder quota `z` is
additionally non-negative whenever `c > 0` (for `c = 0` it can be
negative, see the counterexample). -/
theorem ratio_counts_sum_and_nonneg (total a b c : ℕ) (h : a + b + c ≠ 0) :
    (ratio_counts total (a, b, c)).isSome = true ∧
    ∀ x y z : ℤ, ratio_counts total (a, b, c) = some (x, y, z) →
      x + y + z = total ∧ 0 ≤ x ∧ 0 ≤ y ∧ (0 < c → 0 ≤ z) := by
  constructor
  · simp [ratio_counts, h]
  · intro x y z hxyz
    simp only [ratio_counts, h, if_false] at hxyz
    obtain ⟨hx, hy, hz⟩ := Prod.mk.injEq .. ▸ (Option.some.injEq .. ▸ hxyz)
    refine ⟨?_, ?_, ?_, ?_⟩
    · omega
    · omega
    · omega
    · intro hc
      have hle := quota_pair_le total a b c hc
      omega

/-- Witness for C1's amended theorem at the shipped configuration
`total = 10`, `ratio = (6,3,1)`. -/
theorem ratio_counts_sum_and_nonneg_witness :
    (ratio_counts 10 (6, 3, 1)).isSome = true ∧
    (6 : ℤ) + 3 + 1 = (10 : ℕ) ∧ (0:ℤ) ≤ 6 ∧ (0:ℤ) ≤ 3 ∧ (0 < 1 → (0:ℤ) ≤ 1) := by
  have h := ratio_counts_sum_and_nonneg 10 6 3 1 (by decide)
  have h2 := h.2 6 3 1 (by decide)
  exact ⟨h.1, h2.1, h2.2.1, h2.2.2.1, h2.2.2.2⟩

/-- C1 counterexample: at `total = 3`, `ratio = (1,1,0)` the two rounded
quotas are `2` and `2` (each an exact tie `1.5` rounded to the even
integer `2`), so the remainder quota is `-1 < 0`: the claimed
non-negativity of all three quotas fails. -/
theorem ratio_counts_neg_quota_cex :
    ratio_counts 3 (1, 1, 0) = some (2, 2, -1) ∧ ¬ ((0:ℤ) ≤ -1) := by
  constructor
  · decide
  · decide

/-- C2 (amended): for every positive-sum ratio, the allocator computes the
first two quotas by rounding `total*a/s` and `total*b/s` to the nearest
integer — each quota differs from the exact fraction by at most one half,
and an exact half-tie is resolved to the EVEN integer (Python 3 `round`),
not away from zero — and the third quota is the remainder
`total - x - y`. -/
theorem ratio_counts_rounding (total a b c : ℕ) (h : a + b + c ≠ 0) :
    ratio_counts total (a, b, c) =
      some ((roundHalfEvenFrac (total * a) (a + b + c) : ℤ),
            (roundHalfEvenFrac (total * b) (a + b + c) : ℤ),
            (total : ℤ) - roundHalfEvenFrac (total * a) (a + b + c)
              - roundHalfEvenFrac (total * b) (a + b + c)) ∧
    (2 * (total * a) ≤
        2 * (a + b + c) * roundHalfEvenFrac (total * a) (a + b + c) + (a + b + c) ∧
      2 * (a + b + c) * roundHalfEvenFrac (total * a) (a + b + c) ≤
        2 * (total * a) + (a + b + c)) ∧
    (2 * (total * a % (a + b + c)) = a + b + c →
      roundHalfEvenFrac (total * a) (a + b + c) % 2 = 0) := by
  have hS : 0 < a + b + c := by omega
  refine ⟨by simp [ratio_counts, h], ⟨roundHalfEvenFrac_ge hS, roundHalfEvenFrac_le hS⟩, ?_⟩
  exact roundHalfEvenFrac_tie_even

/-- Witness for C2's amended theorem: the spec's own concrete scenarios,
`ratio_counts 10 (6,3,1) = (6,3,1)` and `ratio_counts 10 (1,1,1) = (3,3,4)`. -/
theorem ratio_counts_rounding_witness :
    ratio_counts 10 (6, 3, 1) = some (6, 3, 1) ∧
    ratio_counts 10 (1, 1, 1) = some (3, 3, 4) := by
  have h1 := (ratio_counts_rounding 10 6 3 1 (by decide)).1
  have h2 := (ratio_counts_rounding 10 1 1 1 (by decide)).1
  refine ⟨h1.trans (by decide), h2.trans (by decide)⟩

/-- C2 counterexample: at `total = 2`, `ratio = (1,1,2)` the exact first
fraction is `2/4 = 0.5`; Python 3 `round` yields `0` (ties to even), so the
code returns quotas `(0,0,2)`, while the spec's claimed
ties-away-from-zero rounding of `0.5` yields `1`. -/
theorem ratio_counts_ties_away_cex :
    ratio_counts 2 (1, 1, 2) = some (0, 0, 2) ∧
      roundTiesAwayFrac (2 * 1) (1 + 1 + 2) = 1 := by
  constructor
  · decide
  · decide

theorem count_hits_fold_fst_eq_snd (text : String) (kws : List String)
    (acc : ℕ × ℕ) (h : acc.1 = acc.2) :
    (kws.foldl
      (fun acc kw =>
        if isSubstringOf kw.data (norm text).data then (acc.1 + 1, acc.2 + 1) else acc)
      acc).1 =
    (kws.foldl
      (fun acc kw =>
        if isSubstringOf kw.data (norm text).data then (acc.1 + 1, acc.2 + 1) else acc)
      acc).2 := by
  induction kws generalizing acc with
  | nil => exact h
  | cons kw rest ih =>
    simp only [List.foldl_cons]
    split
    · exact ih _ (by simp [h])
    · exact ih _ h

/-- In `count_hits`, `hits` and `score` are always equal. -/
theorem count_hits_fst_eq_snd (text : String) (kws : List String) :
    (count_hits text kws).1 = (count_hits text kws).2 :=
  count_hits_fold_fst_eq_snd text kws (0, 0) rfl

/-- Folding the best-bucket step over buckets none of which beats the
accumulator strictly leaves the accumulator unchanged. -/
theorem classify_fold_no_change (blob : String) (bs : List (String × List String))
    (acc : Option String × ℕ × ℤ)
    (h : ∀ b ∈ bs, ((count_hits blob b.2).2 : ℤ) ≤ acc.2.2) :
    bs.foldl (classifyStep blob) acc = acc := by
  induction bs with
  | nil => rfl
  | cons b rest ih =>
    have hb : ((count_hits blob b.2).2 : ℤ) ≤ acc.2.2 := h b (by simp)
    have hstep : classifyStep blob acc b = acc := by
      unfold classifyStep
      rw [if_neg (by omega)]
    simp only [List.foldl_cons, hstep]
    exact ih fun b' hb' => h b' (by simp [hb'])

/-- C3: the best-bucket loop replaces the running best only on a strictly
greater score, so the first bucket (in declaration order) whose score is
not strictly beaten by any later bucket wins — in particular on a tie the
earlier bucket wins; and the spec's concrete scenario: with buckets
`A = ["robot"]`, `B = ["diffusion"]` and text
"A robot uses a diffusion model" both buckets score 1 and `A` wins. -/
theorem classifier_tie_break :
    (∀ (n : String) (k : List String) (bs : List (String × List String)) (text : String),
        (∀ b ∈ bs, (count_hits text b.2).2 ≤ (count_hits text k).2) →
        (classify ((n, k) :: bs) text).1 = some n) ∧
    classify [("A", ["robot"]), ("B", ["diffusion"])] "A robot uses a diffusion model"
      = (some "A", 1, 1) := by
  constructor
  · intro n k bs text h
    have hstep : classifyStep text (none, 0, -1) (n, k)
        = (some n, (count_hits text k).1, ((count_hits text k).2 : ℤ)) := by
      simp only [classifyStep]
      rw [if_pos (by omega)]
    simp only [classify, List.foldl_cons, hstep]
    rw [classify_fold_no_change]
    intro b hb
    have hbk := h b hb
    simp only []
    exact_mod_cast hbk
  · decide

/-- Witness for C3's universal part: a two-bucket tie at a concrete input
(both buckets score 1 on the scenario text) resolves to the first bucket. -/
theorem classifier_tie_break_witness :
    (classify [("A", ["robot"]), ("B", ["diffusion"])] "A robot uses a diffusion model").1
      = some "A" := by
  apply classifier_tie_break.1
  intro b hb
  fin_cases hb
  decide

theorem classify_fold_bucket_mem (blob : String) (bs : List (String × List String))
    (acc : Option String × ℕ × ℤ) :
    (bs.foldl (classifyStep blob) acc).1 = acc.1 ∨
      ∃ b ∈ bs, (bs.foldl (classifyStep blob) acc).1 = some b.1 := by
  induction bs generalizing acc with
  | nil => exact Or.inl rfl
  | cons b rest ih =>
    simp only [List.foldl_cons]
    rcases ih (classifyStep blob acc b) with h | ⟨b', hb', h⟩
    · by_cases hc : ((count_hits blob b.2).2 : ℤ) > acc.2.2
      · have hstep : (classifyStep blob acc b).1 = some b.1 := by
          simp only [classifyStep]
          rw [if_pos hc]
        exact Or.inr ⟨b, by simp, h.trans hstep⟩
      · have hstep : classifyStep blob acc b = acc := by
          simp only [classifyStep]
          rw [if_neg hc]
        rw [hstep] at h
        rw [hstep]
        exact Or.inl h
    · exact Or.inr ⟨b', by simp [hb'], h⟩

theorem classify_fold_score_mono (blob : String) (bs : List (String × List String))
    (acc : Option String × ℕ × ℤ) :
    acc.2.2 ≤ (bs.foldl (classifyStep blob) acc).2.2 := by
  induction bs generalizing acc with
  | nil => exact le_refl _
  | cons b rest ih =>
    simp only [List.foldl_cons]
    refine le_trans ?_ (ih (classifyStep blob acc b))
    simp only [classifyStep]
    split
    · rename_i hgt
      simp only []
      omega
    · exact le_refl _

theorem classify_fold_score_ge (blob : String) (bs : List (String × List String))
    (acc : Option String × ℕ × ℤ) (b : String × List String) (hb : b ∈ bs) :
    ((count_hits blob b.2).2 : ℤ) ≤ (bs.foldl (classifyStep blob) acc).2.2 := by
  induction bs generalizing acc with
  | nil => cases hb
  | cons b' rest ih =>
    simp only [List.foldl_cons]
    rcases List.mem_cons.mp hb with rfl | h
    · refine le_trans ?_ (classify_fold_score_mono blob rest _)
      simp only [classifyStep]
      split
      · simp
      · rename_i hn
        omega
    · exact ih _ h

theorem classify_fold_hits_eq_score (blob : String) (bs : List (String × List String))
    (acc : Option String × ℕ × ℤ)
    (hacc : acc.2.2 = -1 ∨ ((acc.2.1 : ℤ) = acc.2.2)) :
    (bs.foldl (classifyStep blob) acc).2.2 = -1 ∨
      (((bs.foldl (classifyStep blob) acc).2.1 : ℤ)
        = (bs.foldl (classifyStep blob) acc).2.2) := by
  induction bs generalizing acc with
  | nil => exact hacc
  | cons b rest ih =>
    simp only [List.foldl_cons]
    apply ih
    simp only [classifyStep]
    split
    · right
      simp only []
      exact_mod_cast congrArg Nat.cast (count_hits_fst_eq_snd blob b.2)
    · exact hacc

/-- C6 (amended): for every non-empty bucket table and every text, the
classifier's winner is one of the configured bucket names; and whenever
some bucket has a positive hit count, the winning bucket's hit count is
positive (a 0-hit bucket can win only in the degenerate case where every
bucket scores 0, see the counterexample to the unrestricted claim). -/
theorem classifier_bucket_invariant (bs : List (String × List String)) (t : String)
    (hbs : bs ≠ []) :
    (∃ n, (classify bs t).1 = some n ∧ n ∈ bs.map Prod.fst) ∧
    ((∃ b ∈ bs, 0 < (count_hits t b.2).1) → 0 < (classify bs t).2.1) := by
  obtain ⟨b₀, rest, rfl⟩ := List.exists_cons_of_ne_nil hbs
  constructor
  · have hstep1 : (classifyStep t (none, 0, -1) b₀).1 = some b₀.1 := by
      simp only [classifyStep]
      rw [if_pos (by omega)]
    rcases classify_fold_bucket_mem t rest (classifyStep t (none, 0, -1) b₀) with h | ⟨b', hb', h⟩
    · refine ⟨b₀.1, ?_, by simp⟩
      simp only [classify, List.foldl_cons]
      rw [h, hstep1]
    · refine ⟨b'.1, ?_, ?_⟩
      · simp only [classify, List.foldl_cons]
        exact h
      · exact List.mem_map_of_mem Prod.fst (by simp [hb'])
  · rintro ⟨b, hb, hpos⟩
    have hfs := count_hits_fst_eq_snd t b.2
    have hscore := classify_fold_score_ge t (b₀ :: rest) (none, 0, -1) b hb
    have hinv := classify_fold_hits_eq_score t (b₀ :: rest) (none, 0, -1) (Or.inl rfl)
    simp only [classify]
    rcases hinv with h | h <;> omega

/-- Witness for C6's amended theorem on a concrete one-bucket table. -/
theorem classifier_bucket_invariant_witness :
    (classify [("A", ["x"])] "x").1 = some "A" ∧
      0 < (classify [("A", ["x"])] "x").2.1 := by
  have h := classifier_bucket_invariant [("A", ["x"])] "x" (by simp)
  obtain ⟨⟨n, hn, hmem⟩, himp⟩ := h
  have hwin : 0 < (classify [("A", ["x"])] "x").2.1 :=
    himp ⟨("A", ["x"]), by simp, by decide⟩
  simp only [List.map_cons, List.map_nil, List.mem_singleton] at hmem
  exact ⟨hmem ▸ hn, hwin⟩

/-- C6 counterexample: with the non-empty keyword lists
`A = ["x"]`, `B = ["y"]` and the text `"z"`, every bucket scores 0, yet
the classifier still selects bucket `A` — whose hit count on the text is
0 — refuting the unrestricted claim that a 0-hit bucket is never the
winner. -/
theorem classifier_zero_hit_winner_cex :
    (classify [("A", ["x"]), ("B", ["y"])] "z").1 = some "A" ∧
      (count_hits "z" ["x"]).1 = 0 := by
  constructor
  · decide
  · decide

/-- C7: a recent, not-yet-seen candidate is discarded exactly when its
winning bucket's hit count is strictly below the configured minimum
(`MIN_HITS_ANY_BUCKET = 2`); a hit count equal to the minimum passes and
the item is appended to the pool (and its id to the seen set). -/
theorem threshold_strictly_less (buckets : List (String × List String)) (since : ℤ)
    (seen : Finset String) (rows : List Row) (c : Candidate)
    (hrec : ¬ c.published < since) (hseen : pidStrip c.shortId ∉ seen) :
    MIN_HITS_ANY_BUCKET = 2 ∧
    (candHits buckets c < MIN_HITS_ANY_BUCKET →
      processItem buckets MIN_HITS_ANY_BUCKET since (seen, rows) c = (seen, rows)) ∧
    (MIN_HITS_ANY_BUCKET ≤ candHits buckets c →
      processItem buckets MIN_HITS_ANY_BUCKET since (seen, rows) c
        = (insert (pidStrip c.shortId) seen, rows ++ [mkRow buckets c])) := by
  refine ⟨rfl, ?_, ?_⟩
  · intro hlt
    unfold processItem
    rw [if_neg hrec, if_neg (by exact hseen), if_pos hlt]
  · intro hge
    unfold processItem
    rw [if_neg hrec, if_neg (by exact hseen), if_neg (by omega)]

/-- Witness for C7 at a concrete candidate whose winning bucket scores
exactly the threshold 2 ("robot" and "slam" both hit bucket P1): it is
kept, not discarded. -/
theorem threshold_strictly_less_witness :
    processItem BUCKETS MIN_HITS_ANY_BUCKET 0
        (∅, [])
        { shortId := "2501.00001v2", title := "Robot SLAM", summary := "",
          authorNames := [], published := 5, publishedIso := "", entryId := "" }
      = (insert (pidStrip "2501.00001v2") ∅,
          [mkRow BUCKETS
            { shortId := "2501.00001v2", title := "Robot SLAM", summary := "",
              authorNames := [], published := 5, publishedIso := "", entryId := "" }]) := by
  exact (threshold_strictly_less BUCKETS 0 ∅ []
    { shortId := "2501.00001v2", title := "Robot SLAM", summary := "",
      authorNames := [], published := 5, publishedIso := "", entryId := "" }
    (by decide) (by decide)).2.2 (by decide)

theorem rowLE_trans (a b c : Row) (h₁ : rowLE a b = true) (h₂ : rowLE b c = true) :
    rowLE a c = true := by
  simp only [rowLE, decide_eq_true_eq] at h₁ h₂ ⊢
  rcases h₁ with h₁ | ⟨h₁e, h₁p⟩ <;> rcases h₂ with h₂ | ⟨h₂e, h₂p⟩
  · exact Or.inl (h₂.trans h₁)
  · exact Or.inl (by omega)
  · exact Or.inl (by omega)
  · exact Or.inr ⟨h₁e.trans h₂e, h₂p.trans h₁p⟩

theorem rowLE_total (a b : Row) : rowLE a b || rowLE b a := by
  simp only [rowLE, Bool.or_eq_true, decide_eq_true_eq]
  rcases lt_trichotomy a.score b.score with h | h | h
  · exact Or.inr (Or.inl h)
  · rcases le_total a.published b.published with hp | hp
    · exact Or.inr (Or.inr ⟨h.symm, hp⟩)
    · exact Or.inl (Or.inr ⟨h, hp⟩)
  · exact Or.inl (Or.inl h)

/-- No bucket string starts with two distinct prefixes of the same
length; specialized to the two-character prefixes used in the selector. -/
theorem pyStartswith_excl (s : String) (a b c d : Char) (hne : b ≠ d)
    (h₁ : pyStartswith s (String.mk [a, b]) = true)
    (h₂ : pyStartswith s (String.mk [c, d]) = true) : False := by
  simp only [pyStartswith, List.isPrefixOf_iff_prefix] at h₁ h₂
  obtain ⟨t₁, ht₁⟩ := h₁
  obtain ⟨t₂, ht₂⟩ := h₂
  rw [← ht₁] at ht₂
  simp only [List.cons_append, List.nil_append, List.cons.injEq] at ht₂
  exact hne (ht₂.2.1.symm)

theorem bucketStarts_P2_not_P1 (r : Row) (h : bucketStarts "P2" r = true) :
    bucketStarts "P1" r = false := by
  unfold bucketStarts at h ⊢
  cases hb : r.bucket with
  | none => rfl
  | some s =>
    rw [hb] at h
    by_contra hc
    rw [Bool.not_eq_false] at hc
    exact pyStartswith_excl s 'P' '1' 'P' '2' (by decide) hc h

theorem bucketStarts_P3_not_P1 (r : Row) (h : bucketStarts "P3" r = true) :
    bucketStarts "P1" r = false := by
  unfold bucketStarts at h ⊢
  cases hb : r.bucket with
  | none => rfl
  | some s =>
    rw [hb] at h
    by_contra hc
    rw [Bool.not_eq_false] at hc
    exact pyStartswith_excl s 'P' '1' 'P' '3' (by decide) hc h

theorem bucketStarts_P1_not_P2 (r : Row) (h : bucketStarts "P1" r = true) :
    bucketStarts "P2" r = false := by
  unfold bucketStarts at h ⊢
  cases hb : r.bucket with
  | none => rfl
  | some s =>
    rw [hb] at h
    by_contra hc
    rw [Bool.not_eq_false] at hc
    exact pyStartswith_excl s 'P' '2' 'P' '1' (by decide) hc h

theorem bucketStarts_P3_not_P2 (r : Row) (h : bucketStarts "P3" r = true) :
    bucketStarts "P2" r = false := by
  unfold bucketStarts at h ⊢
  cases hb : r.bucket with
  | none => rfl
  | some s =>
    rw [hb] at h
    by_contra hc
    rw [Bool.not_eq_false] at hc
    exact pyStartswith_excl s 'P' '2' 'P' '3' (by decide) hc h

theorem bucketStarts_P1_not_P3 (r : Row) (h : bucketStarts "P1" r = true) :
    bucketStarts "P3" r = false := by
  unfold bucketStarts at h ⊢
  cases hb : r.bucket with
  | none => rfl
  | some s =>
    rw [hb] at h
    by_contra hc
    rw [Bool.not_eq_false] at hc
    exact pyStartswith_excl s 'P' '3' 'P' '1' (by decide) hc h

theorem bucketStarts_P2_not_P3 (r : Row) (h : bucketStarts "P2" r = true) :
    bucketStarts "P3" r = false := by
  unfold bucketStarts at h ⊢
  cases hb : r.bucket with
  | none => rfl
  | some s =>
    rw [hb] at h
    by_contra hc
    rw [Bool.not_eq_false] at hc
    exact pyStartswith_excl s 'P' '3' 'P' '2' (by decide) hc h

/-- A take of a filter of the sorted pool has zero `countP` for any
predicate excluded by the filter predicate. -/
theorem countP_take_filter_zero (l : List Row) (p q : String) (n : ℕ)
    (hexcl : ∀ r : Row, bucketStarts p r = true → bucketStarts q r = false) :
    ((l.filter (bucketStarts p)).take n).countP (bucketStarts q) = 0 := by
  rw [List.countP_eq_zero]
  intro r hr
  have hmem : r ∈ l.filter (bucketStarts p) := List.mem_of_mem_take hr
  have hp : bucketStarts p r = true := List.of_mem_filter hmem
  simp [hexcl r hp]

/-- The P-bucket contribution to `select` is bounded by the quota and by
the number of such rows in the pool. -/
theorem countP_take_filter_le (l : List Row) (p : String) (n : ℕ) :
    ((l.filter (bucketStarts p)).take n).countP (bucketStarts p)
      ≤ min n (l.countP (bucketStarts p)) := by
  refine le_min ?_ ?_
  · exact le_trans (List.countP_le_length _) (by rw [List.length_take]; omega)
  · refine le_trans ((List.take_sublist _ _).countP_le _) ?_
    have h1 : (l.filter (bucketStarts p)).countP (bucketStarts p)
        = (l.filter (bucketStarts p)).length :=
      List.countP_eq_length.mpr (fun a ha => List.of_mem_filter ha)
    rw [h1, ← List.countP_eq_length_filter]

/-- Every selected row comes from the pool. -/
theorem select_subset_rows (rows : List Row) (q1 q2 q3 total : ℕ) :
    ∀ r ∈ select rows q1 q2 q3 total, r ∈ rows := by
  intro r hr
  have hperm : (sortRows rows).Perm rows := List.mergeSort_perm rows rowLE
  have hr' := List.mem_of_mem_take hr
  have hmem : ∀ p n, r ∈ ((sortRows rows).filter (bucketStarts p)).take n → r ∈ rows := by
    intro p n hp
    have := List.mem_of_mem_filter (List.mem_of_mem_take hp)
    exact hperm.mem_iff.mp this
  rcases List.mem_append.mp hr' with h | h
  · rcases List.mem_append.mp h with h' | h'
    · exact hmem "P1" q1 h'
    · exact hmem "P2" q2 h'
  · exact hmem "P3" q3 h

/-- C4: the selector sorts the pool once by (score desc, published desc)
(the sorted pool is a permutation of the pool, pairwise ordered by the
sort key), takes for each priority bucket at most its quota from that
bucket's rows of the sorted pool, and truncates the concatenation to the
configured total; hence the shortlist has at most `total` items, every
shortlist item comes from the pool, and each bucket contributes at most
`min quota available` items — an under-supplied bucket is not backfilled
from the others. -/
theorem selector_shortlist (rows : List Row) (q1 q2 q3 total : ℕ) :
    (select rows q1 q2 q3 total).length ≤ total ∧
    (sortRows rows).Perm rows ∧
    List.Pairwise (fun a b => rowLE a b = true) (sortRows rows) ∧
    (select rows q1 q2 q3 total).countP (bucketStarts "P1")
      ≤ min q1 (rows.countP (bucketStarts "P1")) ∧
    (select rows q1 q2 q3 total).countP (bucketStarts "P2")
      ≤ min q2 (rows.countP (bucketStarts "P2")) ∧
    (select rows q1 q2 q3 total).countP (bucketStarts "P3")
      ≤ min q3 (rows.countP (bucketStarts "P3")) ∧
    ∀ r ∈ select rows q1 q2 q3 total, r ∈ rows := by
  have hperm : (sortRows rows).Perm rows := List.mergeSort_perm rows rowLE
  have hsubsel := List.take_sublist total
    ((((sortRows rows).filter (bucketStarts "P1")).take q1)
      ++ (((sortRows rows).filter (bucketStarts "P2")).take q2)
      ++ (((sortRows rows).filter (bucketStarts "P3")).take q3))
  refine ⟨?_, hperm, ?_, ?_, ?_, ?_, ?_⟩
  · rw [select, List.length_take]
    omega
  · exact List.sorted_mergeSort rowLE_trans rowLE_total rows
  · have hc := (hsubsel.countP_le (bucketStarts "P1"))
    rw [List.countP_append, List.countP_append] at hc
    have h2 := countP_take_filter_zero (sortRows rows) "P2" "P1" q2 bucketStarts_P2_not_P1
    have h3 := countP_take_filter_zero (sortRows rows) "P3" "P1" q3 bucketStarts_P3_not_P1
    have h1 := countP_take_filter_le (sortRows rows) "P1" q1
    rw [hperm.countP_eq (bucketStarts "P1")] at h1
    rw [select]
    omega
  · have hc := (hsubsel.countP_le (bucketStarts "P2"))
    rw [List.countP_append, List.countP_append] at hc
    have h2 := countP_take_filter_zero (sortRows rows) "P1" "P2" q1 bucketStarts_P1_not_P2
    have h3 := countP_take_filter_zero (sortRows rows) "P3" "P2" q3 bucketStarts_P3_not_P2
    have h1 := countP_take_filter_le (sortRows rows) "P2" q2
    rw [hperm.countP_eq (bucketStarts "P2")] at h1
    rw [select]
    omega
  · have hc := (hsubsel.countP_le (bucketStarts "P3"))
    rw [List.countP_append, List.countP_append] at hc
    have h2 := countP_take_filter_zero (sortRows rows) "P1" "P3" q1 bucketStarts_P1_not_P3
    have h3 := countP_take_filter_zero (sortRows rows) "P2" "P3" q2 bucketStarts_P2_not_P3
    have h1 := countP_take_filter_le (sortRows rows) "P3" q3
    rw [hperm.countP_eq (bucketStarts "P3")] at h1
    rw [select]
    omega
  · exact select_subset_rows rows q1 q2 q3 total

theorem runLoop_seen_eq (buckets : List (String × List String)) (minHits : ℕ)
    (since : ℤ) :
    ∀ (cands : List Candidate) (seen : Finset String) (rows : List Row),
    (cands.foldl (processItem buckets minHits since) (seen, rows)).1
      = seen ∪ ((cands.filter (qualifies buckets minHits since)).map
          (fun c => pidStrip c.shortId)).toFinset := by
  intro cands
  induction cands with
  | nil =>
    intro seen rows
    simp
  | cons c rest ih =>
    intro seen rows
    simp only [List.foldl_cons, List.filter_cons]
    by_cases h1 : c.published < since
    · have hq : qualifies buckets minHits since c = false := by
        simp [qualifies, h1]
      have hp : processItem buckets minHits since (seen, rows) c = (seen, rows) := by
        unfold processItem
        rw [if_pos h1]
      rw [hq, hp]
      simp only [Bool.false_eq_true, if_false]
      exact ih seen rows
    · by_cases h3 : candHits buckets c < minHits
      · have hq : qualifies buckets minHits since c = false := by
          have hn : ¬ minHits ≤ candHits buckets c := by omega
          simp [qualifies, h1, hn]
        have hp : processItem buckets minHits since (seen, rows) c = (seen, rows) := by
          simp [processItem, h1, h3]
        rw [hq, hp]
        simp only [Bool.false_eq_true, if_false]
        exact ih seen rows
      · have hq : qualifies buckets minHits since c = true := by
          simp only [qualifies, Bool.and_eq_true, Bool.not_eq_true',
            decide_eq_false_iff_not, decide_eq_true_eq]
          exact ⟨h1, by omega⟩
        rw [hq]
        simp only [if_true, List.map_cons, List.toFinset_cons]
        by_cases h2 : pidStrip c.shortId ∈ seen
        · have hp : processItem buckets minHits since (seen, rows) c = (seen, rows) := by
            unfold processItem
            rw [if_neg h1, if_pos h2]
          rw [hp, ih seen rows, Finset.union_insert,
            Finset.insert_eq_self.mpr (Finset.mem_union_left _ h2)]
        · have hp : processItem buckets minHits since (seen, rows) c
              = (insert (pidStrip c.shortId) seen, rows ++ [mkRow buckets c]) := by
            unfold processItem
            rw [if_neg h1, if_neg h2, if_neg h3]
          rw [hp, ih (insert (pidStrip c.shortId) seen) (rows ++ [mkRow buckets c]),
            Finset.insert_union, Finset.union_insert]

theorem runLoop_rows_not_seen (buckets : List (String × List String)) (minHits : ℕ)
    (since : ℤ) :
    ∀ (cands : List Candidate) (seen : Finset String) (rows : List Row)
      (S : Finset String), S ⊆ seen → (∀ r ∈ rows, r.pid ∉ S) →
    ∀ r ∈ (cands.foldl (processItem buckets minHits since) (seen, rows)).2, r.pid ∉ S := by
  intro cands
  induction cands with
  | nil =>
    intro seen rows S hS hrows
    simpa using hrows
  | cons c rest ih =>
    intro seen rows S hS hrows
    simp only [List.foldl_cons]
    by_cases h1 : c.published < since
    · have hp : processItem buckets minHits since (seen, rows) c = (seen, rows) := by
        unfold processItem
        rw [if_pos h1]
      rw [hp]
      exact ih seen rows S hS hrows
    · by_cases h2 : pidStrip c.shortId ∈ seen
      · have hp : processItem buckets minHits since (seen, rows) c = (seen, rows) := by
          unfold processItem
          rw [if_neg h1, if_pos h2]
        rw [hp]
        exact ih seen rows S hS hrows
      · by_cases h3 : candHits buckets c < minHits
        · have hp : processItem buckets minHits since (seen, rows) c = (seen, rows) := by
            unfold processItem
            rw [if_neg h1, if_neg h2, if_pos h3]
          rw [hp]
          exact ih seen rows S hS hrows
        · have hp : processItem buckets minHits since (seen, rows) c
              = (insert (pidStrip c.shortId) seen, rows ++ [mkRow buckets c]) := by
            unfold processItem
            rw [if_neg h1, if_neg h2, if_neg h3]
          rw [hp]
          refine ih _ _ S (hS.trans (Finset.subset_insert _ _)) ?_
          intro r hr
          rcases List.mem_append.mp hr with h | h
          · exact hrows r h
          · have hr' : r = mkRow buckets c := by simpa using h
            rw [hr']
            intro hcon
            exact h2 (hS hcon)

/-- C10: over a whole run, the final seen set is exactly the initial seen
set plus the version-stripped ids of all candidates that are inside the
recency window and reach the minimum-hits threshold — independently of
quota cuts and of the final truncation, which act only on the pool; so a
threshold-passing item is persisted as seen even when it misses the
shortlist, and a threshold-failing item is never added.  Moreover no row
of the pool — hence no item of any shortlist selected from it — carries an
id of the initial seen set: an id persisted by an earlier run can never
reappear in a later run's output. -/
theorem seen_ledger_run (buckets : List (String × List String)) (minHits : ℕ)
    (since : ℤ) (seen₀ : Finset String) (cands : List Candidate) :
    (runLoop buckets minHits since seen₀ cands).1
      = seen₀ ∪ ((cands.filter (qualifies buckets minHits since)).map
          (fun c => pidStrip c.shortId)).toFinset ∧
    (∀ r ∈ (runLoop buckets minHits since seen₀ cands).2, r.pid ∉ seen₀) ∧
    (∀ q1 q2 q3 total : ℕ,
      ∀ r ∈ select (runLoop buckets minHits since seen₀ cands).2 q1 q2 q3 total,
        r.pid ∉ seen₀) := by
  refine ⟨runLoop_seen_eq buckets minHits since cands seen₀ [], ?_, ?_⟩
  · exact runLoop_rows_not_seen buckets minHits since cands seen₀ [] seen₀
      (le_refl _) (by simp)
  · intro q1 q2 q3 total r hr
    have hmem : r ∈ (runLoop buckets minHits since seen₀ cands).2 :=
      select_subset_rows (runLoop buckets minHits since seen₀ cands).2
        q1 q2 q3 total r hr
    exact runLoop_rows_not_seen buckets minHits since cands seen₀ [] seen₀
      (le_refl _) (by simp) r hmem

/-- Witness for C10 at a concrete run: one qualifying candidate whose
version-stripped id "paper1" is not in the initial seen set, so its row's
id is not in that set. -/
theorem seen_ledger_run_witness :
    (mkRow [("A", ["x"])] ⟨"paper1v2", "x", "", [], 1, "2025", "url"⟩).pid
      ∉ ({"other"} : Finset String) :=
  (seen_ledger_run [("A", ["x"])] 1 0 {"other"}
    [⟨"paper1v2", "x", "", [], 1, "2025", "url"⟩]).2.1 _ (by decide)

theorem splitCharNE_snd_length (c : Char) (l : List Char) :
    ((splitCharNE c l).2).length = l.count c := by
  induction l with
  | nil => rfl
  | cons a rest ih =>
    simp only [splitCharNE]
    by_cases h : a = c
    · subst h
      simp [List.count_cons, ih]
    · simp [List.count_cons, h, ih]

/-- C5 (amended): every RIS record consists, in order, of the `TY` line,
the `TI` line, one `AU` line per comma-separated field of the stored
author string, the `UR` line, the `ER` terminator and a blank separator;
the number of `AU` lines is `comma count + 1` — in particular an empty or
malformed author string never fails, but an EMPTY author string yields
exactly one `AU` line with an empty author name, not zero `AU` lines. -/
theorem ris_record_shape (r : Row) :
    risRecord r
      = ["TY  - JOUR", "TI  - " ++ r.title]
          ++ (pySplit ',' r.authors).map (fun au => "AU  - " ++ pyStrip au)
          ++ ["UR  - " ++ r.url, "ER  - ", ""] ∧
    (pySplit ',' r.authors).length = r.authors.data.count ',' + 1 ∧
    (r.authors = "" →
      (pySplit ',' r.authors).map (fun au => "AU  - " ++ pyStrip au) = ["AU  - "]) := by
  refine ⟨rfl, ?_, ?_⟩
  · simp [pySplit, splitCharNE_snd_length]
  · intro h
    rw [h]
    decide

/-- Witness for C5's amended theorem at the empty author string. -/
theorem ris_record_shape_witness :
    (pySplit ',' (("" : String))).map (fun au => "AU  - " ++ pyStrip au) = ["AU  - "] :=
  (ris_record_shape ⟨"", "", "", "", "", none, 0, ""⟩).2.2 rfl

/-- C5 counterexample: for a row whose stored author string is empty the
record contains exactly ONE `AU` line (with empty author name), not the
claimed zero `AU` lines. -/
theorem ris_empty_authors_cex :
    risRecord ⟨"", "", "", "", "", none, 0, ""⟩
      = ["TY  - JOUR", "TI  - ", "AU  - ", "UR  - ", "ER  - ", ""] ∧
    (risRecord ⟨"", "", "", "", "", none, 0, ""⟩).countP
        (fun l => pyStartswith l "AU") = 1 := by
  constructor
  · decide
  · decide

/-- C8: the digest entry renders exactly the first 300 characters of the
abstract and appends the `...` marker unconditionally — in particular when
the abstract has at most 300 characters the full abstract appears and the
marker is still appended even though nothing was truncated. -/
theorem digest_truncation_marker (r : Row) :
    mdEntry r = mdEntryHead r ++ "_" ++ pyTake 300 r.abstract ++ "..._\n" ∧
    (r.abstract.data.length ≤ 300 →
      mdEntry r = mdEntryHead r ++ "_" ++ r.abstract ++ "..._\n") := by
  refine ⟨rfl, ?_⟩
  intro h
  unfold mdEntry pyTake
  rw [List.take_of_length_le h]

/-- Witness for C8 at a 5-character abstract: no truncation occurs, yet
the marker is appended. -/
theorem digest_truncation_marker_witness :
    mdEntry ⟨"", "", "", "", "", none, 0, "short"⟩
      = mdEntryHead ⟨"", "", "", "", "", none, 0, "short"⟩ ++ "_" ++ "short" ++ "..._\n" :=
  (digest_truncation_marker ⟨"", "", "", "", "", none, 0, "short"⟩).2 (by decide)

theorem slGo_append (a : List Char)
    (ha : ∀ ch ∈ a, isLineBreakChar ch = false) :
    ∀ (cur rest : List Char),
    slGo false cur (a ++ rest) = slGo false (a.reverse ++ cur) rest := by
  induction a with
  | nil =>
    intro cur rest
    simp
  | cons ch a' ih =>
    intro cur rest
    have hch : isLineBreakChar ch = false := ha ch (by simp)
    have hcr : ch ≠ '\r' := by
      intro hc
      rw [hc] at hch
      exact absurd hch (by decide)
    have hcn : ch ≠ '\n' := by
      intro hc
      rw [hc] at hch
      exact absurd hch (by decide)
    simp only [List.cons_append, List.append_eq, slGo, if_neg hcr, if_neg hcn, hch,
      Bool.false_eq_true, if_false]
    rw [ih (fun c hc => ha c (by simp [hc])) (ch :: cur) rest]
    congr 1
    simp [List.reverse_cons, List.append_assoc]

theorem slGo_single (a : List Char)
    (ha : ∀ ch ∈ a, isLineBreakChar ch = false) (hne : a ≠ []) :
    slGo false [] a = [a] := by
  have h := slGo_append a ha [] []
  rw [List.append_nil] at h
  rw [h]
  have hrev : (a.reverse ++ ([] : List Char)).isEmpty = false := by
    simp [List.isEmpty_iff, hne]
  simp only [slGo, hrev, Bool.false_eq_true, if_false]
  simp

theorem slGo_joinNl :
    ∀ (L : List (List Char)),
    (∀ l ∈ L, l ≠ [] ∧ ∀ ch ∈ l, isLineBreakChar ch = false) →
    slGo false [] (joinNl L) = L := by
  intro L
  induction L with
  | nil =>
    intro _
    rfl
  | cons a L' ih =>
    intro h
    cases L' with
    | nil =>
      have ha := h a (by simp)
      simp only [joinNl]
      exact slGo_single a ha.2 ha.1
    | cons b L'' =>
      have ha := h a (by simp)
      simp only [joinNl]
      rw [slGo_append a ha.2 [] ('\n' :: joinNl (b :: L''))]
      rw [List.append_nil]
      rw [show slGo false a.reverse ('\n' :: joinNl (b :: L''))
          = a.reverse.reverse :: slGo false [] (joinNl (b :: L'')) from rfl]
      rw [ih (fun l hl => h l (by simp [hl]))]
      simp

/-- C9 (amended): for every set of NON-EMPTY, line-break-free identifier
strings, `save_seen` writes the identifiers one per line in
lexicographically sorted order, `load_seen` of the saved contents returns
exactly the original set, and the double save/load round-trip also
returns it.  (For a set containing the empty identifier the round-trip
loses it, see the counterexample.) -/
theorem ledger_roundtrip (S : Finset String)
    (hS : ∀ s ∈ S, s ≠ "" ∧ ∀ ch ∈ s.data, isLineBreakChar ch = false) :
    splitlines (save_seen S) = S.sort (fun a b => a ≤ b) ∧
    load_seen (save_seen S) = S ∧
    load_seen (save_seen (load_seen (save_seen S))) = S := by
  have h1 : splitlines (save_seen S) = S.sort (fun a b => a ≤ b) := by
    unfold splitlines save_seen
    rw [show (String.mk (joinNl ((S.sort (fun a b => a ≤ b)).map String.data))).data
        = joinNl ((S.sort (fun a b => a ≤ b)).map String.data) from rfl]
    rw [slGo_joinNl]
    · rw [List.map_map]
      rw [show String.mk ∘ String.data = id from funext fun s => rfl, List.map_id]
    · intro l hl
      obtain ⟨s, hs, rfl⟩ := List.mem_map.mp hl
      have hsS : s ∈ S := (Finset.mem_sort _).mp hs
      obtain ⟨hne, hbf⟩ := hS s hsS
      refine ⟨?_, hbf⟩
      intro hd
      exact hne (by simpa using congrArg String.mk hd)
  have h2 : load_seen (save_seen S) = S := by
    unfold load_seen
    rw [h1]
    exact Finset.sort_toFinset _ _
  refine ⟨h1, h2, ?_⟩
  rw [h2, h2]

/-- Witness for C9's amended theorem at the concrete set `{"a", "b"}`. -/
theorem ledger_roundtrip_witness :
    load_seen (save_seen ({"a", "b"} : Finset String)) = {"a", "b"} :=
  (ledger_roundtrip {"a", "b"} (by decide)).2.1

/-- C9 counterexample: the empty identifier is newline-free, yet the set
containing only it does not round-trip — the saved file is empty and
loads back as the empty set. -/
theorem ledger_empty_string_cex :
    load_seen (save_seen {""}) = (∅ : Finset String) ∧
      ({""} : Finset String) ≠ (∅ : Finset String) := by
  constructor
  · unfold load_seen save_seen splitlines
    rw [Finset.sort_singleton]
    rfl
  · intro h
    have hmem : ("" : String) ∈ ({""} : Finset String) := Finset.mem_singleton_self _
    rw [h] at hmem
    exact absurd hmem (Finset.not_mem_empty _)

/-- Witness for C4 at a concrete one-row pool and the shipped quotas. -/
theorem selector_shortlist_witness :
    (select [⟨"p1", "t", "a", "2025-01-01", "u",
        some "P1_world_model_vla_3d", 3, "abs"⟩] 6 3 1 10).length ≤ 10 :=
  (selector_shortlist [⟨"p1", "t", "a", "2025-01-01", "u",
      some "P1_world_model_vla_3d", 3, "abs"⟩] 6 3 1 10).1
